import Mathlib

/-
Verification development for the Wayback Machine twitter image downloader
(src/main.py). The Python string manipulations are embedded as structurally
recursive functions over lists of characters; the page-extraction dispatcher,
the URL rewriter and the download ledger are embedded as pure functions,
with network fetches supplied as boolean oracles and the filesystem as
explicit state.
-/

set_option maxRecDepth 4000

/-- Strings are modelled as lists of characters; Python string operations
become structurally recursive functions on them. -/
abbrev Str := List Char

/-- Python substring test (the `in` operator on strings): some suffix of the
second argument starts with the pattern. The empty pattern is contained in
every string, as in Python. -/
def containsSubstr (pat : Str) : Str → Bool
  | [] => pat.isEmpty
  | c :: rest => pat.isPrefixOf (c :: rest) || containsSubstr pat rest

/-- Python s.split(sep)[0] for a one-character separator: the characters
before the first occurrence of sep, or the whole string when sep is absent. -/
def takeUntilChar (sep : Char) : Str → Str
  | [] => []
  | c :: rest => if c = sep then [] else c :: takeUntilChar sep rest

/-- Python s.split(sep) for a one-character separator: the list of pieces
between occurrences of sep.  Always returns at least one piece. -/
def pySplitChar (sep : Char) : Str → List Str
  | [] => [[]]
  | c :: rest =>
    match pySplitChar sep rest with
    | [] => [[c]]
    | h :: t => if c = sep then [] :: h :: t else (c :: h) :: t

/-- Python s.split(sep, 1) for the separator character used by the source
(a forward slash): split only at the first occurrence. -/
def splitFirstSlash : Str → List Str
  | [] => [[]]
  | c :: rest =>
    if c = '/' then [[], rest]
    else
      match splitFirstSlash rest with
      | [] => [[c]]
      | h :: t => (c :: h) :: t

/-- Python s.split(sep) for the five-character separator string used by the
source to cut a Wayback URL at its archive marker segment.  Occurrences are
consumed greedily left to right, exactly as Python does. -/
def splitWeb : Str → List Str
  | '/' :: 'w' :: 'e' :: 'b' :: '/' :: rest => [] :: splitWeb rest
  | c :: rest =>
    match splitWeb rest with
    | [] => [[c]]
    | h :: t => (c :: h) :: t
  | [] => [[]]

/-- The marker string of the image-proxy wrapping in new-era pages. -/
def imTagStr : Str := "im_/".toList

/-- Python src.split(marker)[-1] for the image-proxy marker: the characters
after the last occurrence of the marker, or the string itself when the
marker is absent. -/
def afterLastIm : Str → Str
  | [] => []
  | c :: rest =>
    if containsSubstr imTagStr rest then afterLastIm rest
    else if imTagStr.isPrefixOf (c :: rest) then rest.drop 3
    else c :: rest

/-- Helper of rsplitDotHead: scanning a reversed string, drop everything up
to and including the first dot; return none when there is no dot at all. -/
def dropThroughDot : Str → Option Str
  | [] => none
  | '.' :: rest => some rest
  | _ :: rest => dropThroughDot rest

/-- Python s.rsplit(dot, 1)[0]: the characters before the LAST dot anywhere
in the string, or the whole string when no dot occurs. -/
def rsplitDotHead (s : Str) : Str :=
  match dropThroughDot s.reverse with
  | some r => r.reverse
  | none => s

/-- The literal suffix removed by the first replace call of the
normalization step in download_image. -/
def colonOrig : Str := [':', 'o', 'r', 'i', 'g']

/-- The literal suffix removed by the second replace call of the
normalization step in download_image. -/
def colonLarge : Str := [':', 'l', 'a', 'r', 'g', 'e']

/-- Python s.replace(colonOrig, empty): delete every (leftmost,
non-overlapping) occurrence of the five-character suffix marker. -/
def stripOrig : Str → Str
  | ':' :: 'o' :: 'r' :: 'i' :: 'g' :: rest => stripOrig rest
  | c :: rest => c :: stripOrig rest
  | [] => []

/-- Python s.replace(colonLarge, empty): delete every (leftmost,
non-overlapping) occurrence of the six-character suffix marker. -/
def stripLarge : Str → Str
  | ':' :: 'l' :: 'a' :: 'r' :: 'g' :: 'e' :: rest => stripLarge rest
  | c :: rest => c :: stripLarge rest
  | [] => []

def colonMedium : Str := [':', 'm', 'e', 'd', 'i', 'u', 'm']
def colonSmall : Str := [':', 's', 'm', 'a', 'l', 'l']
def colonThumb : Str := [':', 't', 'h', 'u', 'm', 'b']

/-- The extractors' re.sub of the anchored size-variant alternation: remove
one trailing size-variant token (large, medium, small or thumb, attached
with a colon) if present.  The four suffixes end in distinct characters, so
at most one can match. -/
def stripSizeSuffix (s : Str) : Str :=
  if colonLarge.isSuffixOf s then s.take (s.length - 6)
  else if colonMedium.isSuffixOf s then s.take (s.length - 7)
  else if colonSmall.isSuffixOf s then s.take (s.length - 6)
  else if colonThumb.isSuffixOf s then s.take (s.length - 6)
  else s

/-- Python str.lower restricted to the ASCII range actually exercised by
profile handles and status URLs. -/
def lowerStr (s : Str) : Str := s.map Char.toLower

/-- Lexicographic comparison of strings by code point, as Python sorted uses. -/
def strLe : Str → Str → Bool
  | [], _ => true
  | _ :: _, [] => false
  | a :: as, b :: bs => if a = b then strLe as bs else decide (a < b)

def insertSorted (x : Str) : List Str → List Str
  | [] => [x]
  | y :: ys => if strLe x y then x :: y :: ys else y :: insertSorted x ys

def sortStrs : List Str → List Str
  | [] => []
  | x :: xs => insertSorted x (sortStrs xs)

def dedupAux (seen : List Str) : List Str → List Str
  | [] => []
  | x :: xs => if seen.contains x then dedupAux seen xs else x :: dedupAux (x :: seen) xs

/-- Python sorted(list(set(xs))) on strings: the distinct elements in
lexicographic order. -/
def sortDedup (xs : List Str) : List Str := sortStrs (dedupAux [] xs)

def concatMap (f : α → List β) : List α → List β
  | [] => []
  | a :: as => f a ++ concatMap f as

/- ---------------------------------------------------------------------
URL Rewriter: _transform_to_raw_url (src/main.py lines 266-288)
--------------------------------------------------------------------- -/

def webTagStr : Str := "/web/".toList
def archiveRoot : Str := "https://web.archive.org/web/".toList
def ifMarker : Str := "if_/".toList
def rawQuery : Str := "?format=jpg&name=orig".toList
def jpgExt : Str := ".jpg".toList

/-- Embedding of _transform_to_raw_url.  The source first tests membership
of the archive marker, then indexes split(marker)[1] and split(slash, 1)[1]
inside a try/except IndexError; the Option models the except branch. -/
def transformToRawUrl (url : Str) : Option Str :=
  if containsSubstr webTagStr url then
    match (splitWeb url).get? 1 with
    | none => none
    | some afterWeb =>
      let parts := splitFirstSlash afterWeb
      match parts.get? 1 with
      | none => none
      | some origUrl =>
        let ts := parts.headD []
        some (archiveRoot ++ ts ++ ifMarker ++ rsplitDotHead origUrl ++ rawQuery)
  else none

/- ---------------------------------------------------------------------
Normalization and filename derivation of download_image (lines 300-313)
--------------------------------------------------------------------- -/

/-- The normalized deduplication key of download_image:
image_url.split(query)[0] with the colonOrig and colonLarge markers deleted. -/
def normalizedUrl (url : Str) : Str :=
  stripLarge (stripOrig ((pySplitChar '?' url).headD []))

/-- Embedding of the full step-1 block of download_image, inside its
try/except IndexError: the normalized key together with the derived
filename (profile id, underscore, last path segment, with a jpg extension
appended when the segment carries no dot).  The Option models the
IndexError handler. -/
def normalizeUrlAndName (tid url : Str) : Option (Str × Str) :=
  match (pySplitChar '?' url).head? with
  | none => none
  | some h =>
    let nu := stripLarge (stripOrig h)
    match (pySplitChar '/' nu).getLast? with
    | none => none
    | some seg =>
      let f := tid ++ '_' :: seg
      some (nu, if '.' ∈ f then f else f ++ jpgExt)

/- ---------------------------------------------------------------------
Layout extractors and dispatcher: get_image_urls_from_page (lines 127-264).
The page is modelled after the fetch and BeautifulSoup parse succeeded (the
fetch is an external collaborator; BeautifulSoup accepts arbitrary bytes):
the parsed document is given as the lists of exactly the elements the
source queries, and the json body as the shape the source reads.
--------------------------------------------------------------------- -/

def pbsMediaStr : Str := "pbs.twimg.com/media/".toList
def photoStr : Str := "photo".toList
def statusSeg : Str := "/status/".toList

/-- A new-era tweet container: an article element with the tweet testid.
hrefs are the href attributes of its anchor descendants; metaThumbs the
content attributes of its thumbnailUrl meta tags (those carrying content);
photoImgs the src of the first img inside each of its tweetPhoto divs that
has one. -/
structure NewArticle where
  hrefs : List Str
  metaThumbs : List Str
  photoImgs : List Str
deriving DecidableEq

/-- A legacy tweet container: a div whose class matches the tweet word and
which carries a data-screen-name attribute (its value), data-image-url
attributes of its media containers, and og:image meta contents. -/
structure LegacyTweet where
  screenName : Str
  dataImageUrls : List Str
  ogImages : List Str
deriving DecidableEq

/-- An entry of the included-media section of a decoded json body.  Fields
read with .get are Options; media_key is an Option because the source
subscripts it unchecked, so its absence raises a KeyError. -/
structure MediaItem where
  mtype : Option Str
  url : Option Str
  mediaKey : Option Str
deriving DecidableEq

/-- An entry of the included-users section: username read via .get with an
empty default, id read via .get (absent gives Python None). -/
structure JUser where
  username : Option Str
  id : Option Str
deriving DecidableEq

/-- A tweet object of the payload: author_id via .get; mediaKeys is some
exactly when both the attachments key and its media_keys key are present. -/
structure JTweet where
  authorId : Option Str
  mediaKeys : Option (List Str)
deriving DecidableEq

/-- The data field of the body: the source extends with it when it is a
list, appends it when it is a dict, and ignores any other shape. -/
inductive DataField where
  | absent
  | list (ts : List JTweet)
  | single (t : JTweet)
  | other
deriving DecidableEq

def dataTweets : DataField → List JTweet
  | DataField.list ts => ts
  | DataField.single t => [t]
  | _ => []

/-- A decoded json object body, carrying the sections the source reads.
An absent includes key and an absent subsection key behave identically
(both skip), so they are conflated into one Option each. -/
structure TwitterJson where
  includesMedia : Option (List MediaItem)
  includesUsers : Option (List JUser)
  includesTweets : Option (List JTweet)
  dataField : DataField
deriving DecidableEq

/-- The body of the page as seen by the json fallback strategy:
decodeError is a json.JSONDecodeError; scalar is a body that is valid JSON
but not a container (a number, boolean or null), on which the membership
test of the source raises a TypeError caught by its generic handler;
obj is a decoded JSON object. -/
inductive PageJson where
  | decodeError
  | scalar
  | obj (d : TwitterJson)
deriving DecidableEq

/-- The parsed page handed to the extraction strategies. -/
structure PageDoc where
  articles : List NewArticle
  legacyTweets : List LegacyTweet
  json : PageJson
deriving DecidableEq

/-- The two parse-failure lines the dispatcher can append to the snapshot
failure log: the response-is-neither-HTML-nor-JSON line of the
JSONDecodeError handler, and the unexpected-error line of the generic
json-branch handler. -/
inductive SnapLog where
  | notJsonMsg
  | jsonUnexpected
deriving DecidableEq

/-- The case-insensitive status-permalink search of the new-era strategy:
article.find of an anchor whose href matches the profile status path
under re.IGNORECASE (the profile id is interpolated literally). -/
def articleAttributable (tid : Str) (a : NewArticle) : Bool :=
  a.hrefs.any (fun h => containsSubstr (lowerStr ('/' :: (tid ++ statusSeg))) (lowerStr h))

/-- The images collected from one attributable new-era article: the
thumbnail meta contents when any exist, otherwise the tweetPhoto img
sources; in both cases only media-proxy URLs contribute, the query is
stripped and a jpg extension appended; the meta path first strips a
trailing size variant, the img path first unwraps the image-proxy marker. -/
def newEraArticleImages (a : NewArticle) : List Str :=
  if a.metaThumbs.isEmpty then
    concatMap (fun src =>
      if containsSubstr pbsMediaStr src then
        [takeUntilChar '?' (if containsSubstr imTagStr src then afterLastIm src else src) ++ jpgExt]
      else []) a.photoImgs
  else
    concatMap (fun url =>
      if containsSubstr pbsMediaStr url then
        [takeUntilChar '?' (stripSizeSuffix url) ++ jpgExt]
      else []) a.metaThumbs

/-- All image URLs collected by the new-era strategy: only articles with an
attributable status permalink contribute. -/
def newEraUrls (tid : Str) (arts : List NewArticle) : List Str :=
  concatMap newEraArticleImages (arts.filter (articleAttributable tid))

/-- The images collected from one selected legacy tweet container: the
data-image-url attributes and the media-proxy og:image metas, each with a
trailing size variant stripped. -/
def legacyTweetImages (t : LegacyTweet) : List Str :=
  t.dataImageUrls.map stripSizeSuffix ++
  concatMap (fun url =>
    if containsSubstr pbsMediaStr url then [stripSizeSuffix url] else []) t.ogImages

/-- The included-media loop building media_map: photo-typed entries
carrying a url are inserted under their media_key; an entry passing that
guard without a media_key raises a KeyError (the error case), caught by
the generic handler of the json branch. -/
def buildMediaMap : List MediaItem → Except Unit (List (Str × Str))
  | [] => Except.ok []
  | m :: rest =>
    if m.mtype == some photoStr && m.url.isSome then
      match m.mediaKey, m.url with
      | some k, some u => (buildMediaMap rest).map (fun r => (k, u) :: r)
      | _, _ => Except.error ()
    else buildMediaMap rest

/-- Lookup in media_map: dict assignment overwrites, so the last binding of
a key wins. -/
def lookupLast (l : List (Str × Str)) (k : Str) : Option Str :=
  ((l.filter (fun p => p.1 == k)).getLast?).map Prod.snd

/-- The included-users loop: the first user whose username (empty when
absent) equals the profile id case-insensitively contributes its id field
and the loop breaks; the result is Python None when no user matches or the
matching user has no id. -/
def findTargetUserId (tid : Str) : List JUser → Option Str
  | [] => none
  | u :: rest =>
    if lowerStr (u.username.getD []) == lowerStr tid then u.id
    else findTargetUserId tid rest

/-- The json fallback strategy (lines 209-262), returning the images and
the snapshot-failure lines it appends.  The truthiness test of the source
on target_user_id treats both Python None and the empty string as no
resolved user. -/
def jsonStrategyRun (d : TwitterJson) (tid : Str) : List Str × List SnapLog :=
  match buildMediaMap (d.includesMedia.getD []) with
  | Except.error _ => ([], [SnapLog.jsonUnexpected])
  | Except.ok mmap =>
    let urls :=
      match findTargetUserId tid (d.includesUsers.getD []) with
      | some uid =>
        if uid.isEmpty then []
        else
          concatMap (fun t =>
            if t.authorId == some uid then
              (t.mediaKeys.getD []).filterMap (lookupLast mmap)
            else [])
            (dataTweets d.dataField ++ d.includesTweets.getD [])
      | none => []
    if urls.isEmpty then ([], []) else (sortDedup urls, [])

/-- The extraction dispatcher get_image_urls_from_page after a successful
page fetch: new-era markup first, legacy markup only when no attributable
article was seen, json decode only when neither markup strategy found a
tweet of the profile.  Returns the deduplicated sorted URLs and the lines
appended to the snapshot failure log. -/
def getImageUrlsFromPage (doc : PageDoc) (tid : Str) : List Str × List SnapLog :=
  let found1 := doc.articles.any (articleAttributable tid)
  let legacySel := doc.legacyTweets.filter (fun t => t.screenName == tid)
  let htmlUrls := if found1 then newEraUrls tid doc.articles
                  else concatMap legacyTweetImages legacySel
  if found1 || !legacySel.isEmpty then (sortDedup htmlUrls, [])
  else
    match doc.json with
    | PageJson.decodeError => ([], [SnapLog.notJsonMsg])
    | PageJson.scalar => ([], [SnapLog.jsonUnexpected])
    | PageJson.obj d => jsonStrategyRun d tid

/- ---------------------------------------------------------------------
Download ledger: load_downloaded_urls (lines 57-68) and download_image
(lines 290-360).
--------------------------------------------------------------------- -/

/-- Python str.strip on the whitespace characters of the ASCII range. -/
def isPySpace (c : Char) : Bool :=
  c == ' ' || c == '\t' || c == '\n' || c == '\r' || c == '\x0B' || c == '\x0C'

def pyStrip (s : Str) : Str :=
  ((s.dropWhile isPySpace).reverse.dropWhile isPySpace).reverse

/-- Iterating a Python text file yields its newline-separated lines; a
trailing newline does not produce an extra empty line. -/
def pyFileLines (s : Str) : List Str :=
  if s.isEmpty then []
  else
    let ps := pySplitChar '\n' s
    if (ps.getLastD []).isEmpty then ps.dropLast else ps

/-- Embedding of load_downloaded_urls: a nonexistent log file gives the
empty set, otherwise the set of stripped lines of the file. -/
def loadDownloadedUrls : Option Str → Finset Str
  | none => ∅
  | some c => ((pyFileLines c).map pyStrip).toFinset

/-- The mutable state download_image touches: the in-memory set of
normalized keys, the durable log file (none when it does not exist yet),
and the set of filenames present in the download folder. -/
structure LedgerState where
  mem : Finset Str
  file : Option Str
  disk : Finset Str
deriving DecidableEq

/-- The image-failure lines download_image can append: the filename-parse
failure of the IndexError handler, and the all-routes-failed line. -/
inductive ImgLog where
  | nameFail
  | allFailed
deriving DecidableEq

/-- Observable trace of one download_image call: the URLs handed to
get_with_retries in order (MAX_RETRIES is 1, so each call is one network
attempt), whether a file was saved, whether an already-on-disk file was
backfilled into the ledger, and the image-failure lines appended. -/
structure DLTrace where
  attempts : List Str
  saved : Bool
  repaired : Bool
  logs : List ImgLog
deriving DecidableEq

/-- Record a normalized key: insert into the in-memory set and append one
line to the durable log (creating the file when absent). -/
def appendKey (st : LedgerState) (k : Str) : LedgerState :=
  { st with mem := insert k st.mem, file := some (st.file.getD [] ++ (k ++ ['\n'])) }

/-- Steps 2 and 3 of download_image (lines 324-336): fetch the primary
URL; on failure, fetch the transformed raw-content URL when one exists.
Returns the URLs handed to get_with_retries in order, and whether any
attempt succeeded. -/
def fetchPlan (url : Str) (fetch : Str → Bool) : List Str × Bool :=
  if fetch url then ([url], true)
  else
    match transformToRawUrl url with
    | some raw => ([url, raw], fetch raw)
    | none => ([url], false)

/-- Embedding of download_image.  fetch is the success oracle of
get_with_retries; writing the fetched bytes to disk is modelled as always
succeeding (the file-save exception handler only loses the record, which no
claim exercises).  The trace records fetches, saves, backfills and
image-failure log lines. -/
def downloadImage (tid url : Str) (st : LedgerState) (fetch : Str → Bool) :
    LedgerState × DLTrace :=
  match normalizeUrlAndName tid url with
  | none => (st, ⟨[], false, false, [ImgLog.nameFail]⟩)
  | some (nu, fn) =>
    if nu ∈ st.mem ∨ fn ∈ st.disk then
      if nu ∈ st.mem then (st, ⟨[], false, false, []⟩)
      else (appendKey st nu, ⟨[], false, true, []⟩)
    else
      let ar := fetchPlan url fetch
      if ar.2 then
        (appendKey { st with disk := insert fn st.disk } nu, ⟨ar.1, true, false, []⟩)
      else
        (st, ⟨ar.1, false, false, [ImgLog.allFailed]⟩)

/-- The per-URL loop of main (lines 401-405), over the URLs of successive
pages laid end to end: before each download_image call the size of the
in-memory set is sampled, and the session counter is bumped when the set
grew.  The last two accumulators count, for the verification, the calls
that actually saved a file and the calls that only backfilled the ledger
from a file already on disk. -/
def processUrls (tid : Str) (fetch : Str → Bool) :
    List Str → LedgerState → Nat → Nat → Nat → LedgerState × Nat × Nat × Nat
  | [], st, c, s, r => (st, c, s, r)
  | url :: rest, st, c, s, r =>
    let p := downloadImage tid url st fetch
    let c2 := if st.mem.card < p.1.mem.card then c + 1 else c
    processUrls tid fetch rest p.1 c2 (s + (if p.2.saved then 1 else 0))
      (r + (if p.2.repaired then 1 else 0))

/- ---------------------------------------------------------------------
Specification-side predicates used to state the claims.
--------------------------------------------------------------------- -/

/-- Helper of hasWebSeg: the string has a slash somewhere, so the scan
from here reaches a slash after zero or more non-slash timestamp
characters. -/
def slashAfterTs : Str → Bool
  | [] => false
  | '/' :: _ => true
  | _ :: rest => slashAfterTs rest

/-- The segment pattern of the claim about toRawContentUrl: the string
contains the archive marker followed by a (possibly empty) slash-free
timestamp segment and a further slash. -/
def hasWebSeg : Str → Bool
  | '/' :: 'w' :: 'e' :: 'b' :: '/' :: rest => slashAfterTs rest || hasWebSeg rest
  | _ :: rest => hasWebSeg rest
  | [] => false

/-- An optional query string attached to a URL: nothing, or a question mark
followed by the query text. -/
def queryPart : Option Str → Str
  | none => []
  | some q => '?' :: q

/-- A normalized key round-trips through the durable log: stripping is the
identity on it and it contains no newline. -/
def cleanKey (k : Str) : Prop := pyStrip k = k ∧ '\n' ∉ k

/-- The durable log file, when it exists and is nonempty, ends with a
newline (every append writes one). -/
def nlTerminated : Option Str → Prop
  | none => True
  | some c => c = [] ∨ c.getLast? = some '\n'

/-- Ledger well-formedness: reloading the durable log reconstructs exactly
the in-memory set, and the log is newline-terminated. -/
def ledgerWF (st : LedgerState) : Prop :=
  loadDownloadedUrls st.file = st.mem ∧ nlTerminated st.file

/- ---------------------------------------------------------------------
Concrete inputs used by the per-claim witnesses and counterexamples.
--------------------------------------------------------------------- -/

def c3wHref : Str := "/nasa/status/1".toList
def c3wTid : Str := "NASA".toList
def c3wDoc : PageDoc := ⟨[⟨[c3wHref], [], []⟩], [], PageJson.decodeError⟩

def c4wTid : Str := "t".toList
def c4wDoc : PageDoc := ⟨[], [], PageJson.decodeError⟩

def c4xDoc : PageDoc := ⟨[], [], PageJson.scalar⟩
def c4xTid : Str := "t".toList

def c5wTid : Str := "alice".toList
def c5wUser : JUser := ⟨some ("bob".toList), some ("1".toList)⟩
def c5wJson : TwitterJson := ⟨none, some [c5wUser], none, DataField.absent⟩

def c5xMedia : MediaItem := ⟨some photoStr, some ("u".toList), none⟩
def c5xJson : TwitterJson := ⟨some [c5xMedia], some [], none, DataField.absent⟩
def c5xTid : Str := "t".toList

def c2xUrl : Str := "x/web/abc/web/d".toList

def c2wUrl : Str :=
  "https://web.archive.org/web/20230101/https://pbs.twimg.com/media/abc.jpg".toList
def c2wRes : Str :=
  "https://web.archive.org/web/20230101if_/https://pbs.twimg.com/media/abc?format=jpg&name=orig".toList

def c1wBase : Str := "https://pbs.twimg.com/media/Abc.jpg".toList
def c1wQuery : Str := "name=large".toList

def c1xMedium : Str := "https://pbs.twimg.com/media/Abc.jpg:medium".toList
def c1xBase : Str := "https://pbs.twimg.com/media/Abc.jpg".toList

def c6wKey : Str := "a.jpg".toList
def c6wTid : Str := "t".toList
def c6wFn : Str := "t_a.jpg".toList
def c6wSt : LedgerState := ⟨{c6wKey}, none, ∅⟩

def c6xUrl : Str := [' ', 'a']
def c6xTid : Str := "t".toList
def c6xSt : LedgerState := ⟨∅, none, ∅⟩

def c7xFn : Str := "t_a.jpg".toList
def c7xUrl : Str := "a.jpg".toList
def c7xTid : Str := "t".toList
def c7xSt : LedgerState := ⟨∅, none, {c7xFn}⟩

def c8wTid : Str := "t".toList
def c8wUrl : Str := "https://web.archive.org/web/123/https://a.b/c.png".toList
def c8wRaw : Str := "https://web.archive.org/web/123if_/https://a.b/c?format=jpg&name=orig".toList
def c8wNu : Str := "https://web.archive.org/web/123/https://a.b/c.png".toList
def c8wFn : Str := "t_c.png".toList
def c8wSt : LedgerState := ⟨∅, none, ∅⟩

/- ---------------------------------------------------------------------
Basic lemmas about the embedded string operations.
--------------------------------------------------------------------- -/

theorem pySplitChar_ne_nil (sep : Char) (s : Str) : pySplitChar sep s ≠ [] := by
  cases s with
  | nil => simp [pySplitChar]
  | cons c rest =>
    simp only [pySplitChar]
    rcases h : pySplitChar sep rest with _ | ⟨h1, t⟩
    · simp
    · by_cases hc : c = sep <;> simp [hc]

theorem pySplitChar_headD (sep : Char) (s : Str) :
    (pySplitChar sep s).headD [] = takeUntilChar sep s := by
  induction s with
  | nil => simp [pySplitChar, takeUntilChar]
  | cons c rest ih =>
    simp only [pySplitChar, takeUntilChar]
    rcases h : pySplitChar sep rest with _ | ⟨h1, t⟩
    · exact absurd h (pySplitChar_ne_nil sep rest)
    · by_cases hc : c = sep
      · simp [hc]
      · simp only [hc, if_false]
        rw [h] at ih
        simpa using ih

theorem takeUntilChar_append {sep : Char} {x : Str} (hx : sep ∉ x) (y : Str) :
    takeUntilChar sep (x ++ y) = x ++ takeUntilChar sep y := by
  induction x with
  | nil => simp
  | cons c rest ih =>
    simp only [List.mem_cons, not_or] at hx
    have hc : ¬c = sep := fun h => hx.1 h.symm
    simp [takeUntilChar, hc, ih hx.2]

theorem takeUntilChar_of_not_mem {sep : Char} {x : Str} (hx : sep ∉ x) :
    takeUntilChar sep x = x := by
  have := takeUntilChar_append hx []
  simpa [takeUntilChar] using this

theorem normalizeUrlAndName_total (tid url : Str) :
    ∃ fn, normalizeUrlAndName tid url = some (normalizedUrl url, fn) ∧ '.' ∈ fn := by
  obtain ⟨h0, hh, hd⟩ : ∃ h0, (pySplitChar '?' url).head? = some h0 ∧
      (pySplitChar '?' url).headD [] = h0 := by
    cases hs : pySplitChar '?' url with
    | nil => exact absurd hs (pySplitChar_ne_nil _ _)
    | cons a t => exact ⟨a, by simp, by simp⟩
  have hnu : normalizedUrl url = stripLarge (stripOrig h0) := by
    rw [normalizedUrl, hd]
  unfold normalizeUrlAndName
  rw [hh, hnu]
  have h3 : ((pySplitChar '/' (stripLarge (stripOrig h0))).getLast?).isSome := by
    rw [List.getLast?_isSome]
    exact pySplitChar_ne_nil _ _
  obtain ⟨seg, hseg⟩ := Option.isSome_iff_exists.mp h3
  dsimp only
  rw [hseg]
  dsimp only
  refine ⟨_, rfl, ?_⟩
  by_cases hdot : '.' ∈ tid ++ '_' :: seg
  · simp [hdot]
  · simp only [hdot, if_false]
    exact List.mem_append_right _ (by decide)

/-- C9: the URL-normalization and filename-derivation step of
download_image is total: for every profile id and input string it produces
a normalized key and a filename (so the IndexError handler is unreachable),
and the filename always contains a dot, a jpg extension being appended when
the last path segment has none. -/
theorem c9_normalization_total (tid url : Str) :
    ∃ nu fn, normalizeUrlAndName tid url = some (nu, fn) ∧ '.' ∈ fn := by
  obtain ⟨fn, h1, h2⟩ := normalizeUrlAndName_total tid url
  exact ⟨normalizedUrl url, fn, h1, h2⟩

theorem dropThroughDot_append {w : Str} (hw : '.' ∉ w) (z : Str) :
    dropThroughDot (w ++ '.' :: z) = some z := by
  induction w with
  | nil => simp [dropThroughDot]
  | cons c rest ih =>
    simp only [List.mem_cons, not_or] at hw
    have hc : ¬c = '.' := fun h => hw.1 h.symm
    rw [List.cons_append]
    simp [dropThroughDot, hc, ih hw.2]

theorem rsplitDotHead_append {v : Str} (hv : '.' ∉ v) (u : Str) :
    rsplitDotHead (u ++ '.' :: v) = u := by
  unfold rsplitDotHead
  have hrev : (u ++ '.' :: v).reverse = v.reverse ++ '.' :: u.reverse := by
    simp [List.reverse_append, List.append_assoc]
  rw [hrev, dropThroughDot_append (by simpa using hv)]
  simp

/-- C10: _transform_to_raw_url strips the extension of the underlying URL
at the LAST dot anywhere in it; on a matching input whose underlying URL
has no dot after the hostname, the returned URL is truncated at the
hostname's last dot instead of being left intact (here the media path
loses everything from the .com of the hostname on). -/
theorem c10_extension_strip :
    (∀ u v : Str, '.' ∉ v → rsplitDotHead (u ++ '.' :: v) = u) ∧
    transformToRawUrl ("https://web.archive.org/web/20230101/https://pbs.twimg.com/media/abc".toList)
      = some ("https://web.archive.org/web/20230101if_/https://pbs.twimg?format=jpg&name=orig".toList) :=
  ⟨fun u v hv => rsplitDotHead_append hv u, by decide⟩

/-- Witness for C10: the general conjunct applied at a concrete split. -/
theorem c10_extension_strip_witness :
    ('.' ∉ (['b', 'c'] : Str)) ∧ rsplitDotHead (['a'] ++ '.' :: ['b', 'c']) = ['a'] :=
  ⟨by decide, c10_extension_strip.1 ['a'] ['b', 'c'] (by decide)⟩

/-- C3: when the current-era strategy finds at least one attributable tweet
container on the page, get_image_urls_from_page returns that strategy's
deduplicated, lexicographically sorted result immediately, even when it is
empty, and the result is independent of the legacy markup and of the json
body, which are never consulted on such a page. -/
theorem c3_dispatch_early (doc : PageDoc) (tid : Str)
    (h : doc.articles.any (articleAttributable tid) = true) :
    getImageUrlsFromPage doc tid = (sortDedup (newEraUrls tid doc.articles), []) ∧
    ∀ lts j, getImageUrlsFromPage ⟨doc.articles, lts, j⟩ tid = getImageUrlsFromPage doc tid := by
  refine ⟨by simp [getImageUrlsFromPage, h], fun lts j => ?_⟩
  simp [getImageUrlsFromPage, h]

/-- Witness for C3: a page with one attributable image-free article, whose
body would not decode as json, still returns the (empty) current-era
result with no failure line. -/
theorem c3_dispatch_early_witness :
    getImageUrlsFromPage c3wDoc c3wTid = (sortDedup (newEraUrls c3wTid c3wDoc.articles), []) :=
  (c3_dispatch_early c3wDoc c3wTid (by decide)).1

theorem jsonStrategyRun_no_notJson (d : TwitterJson) (tid : Str) :
    SnapLog.notJsonMsg ∉ (jsonStrategyRun d tid).2 := by
  cases h : buildMediaMap (d.includesMedia.getD []) with
  | error e => simp [jsonStrategyRun, h]
  | ok mmap =>
    simp only [jsonStrategyRun, h]
    split <;> simp

/-- C4 (amended): when both markup strategies find no attributable tweet
and the body is not valid JSON, the dispatcher logs the parse-failure line
and returns the empty list without raising, and that specific line is
written exactly in this situation; however this is NOT the only zero-image
outcome that writes a parse-failure entry (see the counterexample: a body
that is valid JSON but not an object also logs one). -/
theorem c4_not_json_logged :
    (∀ doc tid, doc.articles.any (articleAttributable tid) = false →
      doc.legacyTweets.filter (fun t => t.screenName == tid) = [] →
      doc.json = PageJson.decodeError →
      getImageUrlsFromPage doc tid = ([], [SnapLog.notJsonMsg])) ∧
    (∀ doc tid, SnapLog.notJsonMsg ∈ (getImageUrlsFromPage doc tid).2 ↔
      (doc.articles.any (articleAttributable tid) = false ∧
       doc.legacyTweets.filter (fun t => t.screenName == tid) = [] ∧
       doc.json = PageJson.decodeError)) := by
  constructor
  · intro doc tid h1 h2 h3
    simp [getImageUrlsFromPage, h1, h2, h3]
  · intro doc tid
    by_cases h1 : doc.articles.any (articleAttributable tid) = true
    · simp [getImageUrlsFromPage, h1]
    · have h1' : doc.articles.any (articleAttributable tid) = false := by
        simpa using h1
      by_cases h2 : doc.legacyTweets.filter (fun t => t.screenName == tid) = []
      · cases h3 : doc.json with
        | decodeError => simp [getImageUrlsFromPage, h1', h2, h3]
        | scalar => simp [getImageUrlsFromPage, h1', h2, h3]
        | obj d =>
          simp [getImageUrlsFromPage, h1', h2, h3, jsonStrategyRun_no_notJson d tid]
      · simp [getImageUrlsFromPage, h1', h2]

/-- Witness for C4: the malformed outcome on a concrete page. -/
theorem c4_not_json_logged_witness :
    getImageUrlsFromPage c4wDoc c4wTid = ([], [SnapLog.notJsonMsg]) :=
  c4_not_json_logged.1 c4wDoc c4wTid (by decide) (by decide) rfl

/-- Counterexample for C4: a page on which both markup strategies find
nothing and whose body IS valid JSON (a bare number, decoding to a
non-container on which the membership test raises a TypeError) also yields
zero images while writing a parse-failure line to the snapshot failure
log, so the not-valid-JSON outcome is not the only zero-image outcome with
a parse-failure entry. -/
theorem c4_counterexample :
    getImageUrlsFromPage c4xDoc c4xTid = ([], [SnapLog.jsonUnexpected]) ∧
    c4xDoc.json ≠ PageJson.decodeError := by decide

theorem buildMediaMap_ok_of (l : List MediaItem)
    (h : ∀ m ∈ l, m.mtype = some photoStr → m.url.isSome = true →
      m.mediaKey.isSome = true) :
    ∃ mmap, buildMediaMap l = Except.ok mmap := by
  induction l with
  | nil => exact ⟨[], rfl⟩
  | cons m rest ih =>
    obtain ⟨mm, hmm⟩ := ih (fun x hx => h x (List.mem_cons_of_mem _ hx))
    by_cases hg : (m.mtype == some photoStr && m.url.isSome) = true
    · have hg' := (Bool.and_eq_true _ _).mp hg
      have h1 : m.mtype = some photoStr := by
        have := hg'.1
        simpa [beq_iff_eq] using this
      obtain ⟨u, hu⟩ := Option.isSome_iff_exists.mp hg'.2
      obtain ⟨k, hk⟩ :=
        Option.isSome_iff_exists.mp (h m (List.mem_cons_self _ _) h1 hg'.2)
      refine ⟨(k, u) :: mm, ?_⟩
      simp only [buildMediaMap]
      rw [if_pos hg, hk, hu, hmm]
      rfl
    · refine ⟨mm, ?_⟩
      simp only [buildMediaMap]
      rw [if_neg hg]
      exact hmm

theorem findTargetUserId_none (tid : Str) (us : List JUser)
    (h : ∀ u ∈ us, lowerStr (u.username.getD []) ≠ lowerStr tid) :
    findTargetUserId tid us = none := by
  induction us with
  | nil => rfl
  | cons u rest ih =>
    have h1 : ¬(lowerStr (u.username.getD []) == lowerStr tid) = true := by
      simpa using h u (List.mem_cons_self _ _)
    simp only [findTargetUserId, h1, if_false]
    exact ih (fun x hx => h x (List.mem_cons_of_mem _ hx))

/-- C5 (amended): on a validly decoded structured-data page whose
included-users section has no case-insensitive username match for the
profile id, the json strategy returns zero images and writes no snapshot
failure line (not applicable, not malformed), PROVIDED every photo media
entry carrying a url also carries its media_key — the proviso is forced by
the counterexample below.  The dispatcher then reports zero images
silently. -/
theorem c5_unresolved_user_not_applicable (d : TwitterJson) (tid : Str)
    (hm : ∀ m ∈ d.includesMedia.getD [], m.mtype = some photoStr →
      m.url.isSome = true → m.mediaKey.isSome = true)
    (hu : ∀ u ∈ d.includesUsers.getD [], lowerStr (u.username.getD []) ≠ lowerStr tid) :
    jsonStrategyRun d tid = ([], []) ∧
    (∀ doc : PageDoc, doc.articles.any (articleAttributable tid) = false →
      doc.legacyTweets.filter (fun t => t.screenName == tid) = [] →
      doc.json = PageJson.obj d →
      getImageUrlsFromPage doc tid = ([], [])) := by
  obtain ⟨mm, hmm⟩ := buildMediaMap_ok_of _ hm
  have hj : jsonStrategyRun d tid = ([], []) := by
    simp [jsonStrategyRun, hmm, findTargetUserId_none tid _ hu]
  exact ⟨hj, fun doc h1 h2 h3 => by simp [getImageUrlsFromPage, h1, h2, h3, hj]⟩

/-- Witness for C5: a decoded body listing only a different user resolves
to zero images with no failure line. -/
theorem c5_unresolved_user_witness :
    jsonStrategyRun c5wJson c5wTid = ([], []) :=
  (c5_unresolved_user_not_applicable c5wJson c5wTid (by decide) (by decide)).1

/-- Counterexample for C5: a validly decoded page whose included-users
section is empty (so certainly no user matches the profile id) still
writes a parse-failure line to the snapshot failure log, because a photo
media entry without its media_key raises a KeyError in the media_map loop
before user resolution, caught by the generic json-branch handler. -/
theorem c5_counterexample :
    c5xJson.includesUsers = some [] ∧
    jsonStrategyRun c5xJson c5xTid = ([], [SnapLog.jsonUnexpected]) := by decide

theorem splitWeb_ne_nil (s : Str) : splitWeb s ≠ [] := by
  induction s using splitWeb.induct <;> simp_all [splitWeb]

theorem splitWeb_head_subset (s : Str) : ∀ a, a ∈ (splitWeb s).headD [] → a ∈ s := by
  induction s using splitWeb.induct <;> intro a ha <;> simp_all [splitWeb]
  rcases ha with rfl | hm
  · exact Or.inl rfl
  · exact Or.inr (by solve_by_elim)

theorem slashAfterTs_of_mem {s : Str} (h : '/' ∈ s) : slashAfterTs s = true := by
  induction s with
  | nil => simp at h
  | cons c rest ih =>
    by_cases hc : c = '/'
    · subst hc; rfl
    · have hm : '/' ∈ rest := by
        rcases List.mem_cons.mp h with h1 | h1
        · exact absurd h1.symm hc
        · exact h1
      simp [slashAfterTs, hc, ih hm]

theorem splitFirstSlash_shape (s : Str) :
    (splitFirstSlash s = [s] ∧ '/' ∉ s) ∨
    (∃ ts rest, splitFirstSlash s = [ts, rest] ∧ s = ts ++ '/' :: rest ∧ '/' ∉ ts) := by
  induction s with
  | nil => exact Or.inl ⟨rfl, by simp⟩
  | cons c rest ih =>
    by_cases hc : c = '/'
    · subst hc
      exact Or.inr ⟨[], rest, by simp [splitFirstSlash], by simp, by simp⟩
    · rcases ih with ⟨h1, h2⟩ | ⟨ts, r, h1, h2, h3⟩
      · refine Or.inl ⟨by simp [splitFirstSlash, hc, h1], ?_⟩
        simp only [List.mem_cons, not_or]
        exact ⟨fun h => hc h.symm, h2⟩
      · refine Or.inr ⟨c :: ts, r, by simp [splitFirstSlash, hc, h1], by simp [h2], ?_⟩
        simp only [List.mem_cons, not_or]
        exact ⟨fun h => hc h.symm, h3⟩

theorem hasWebSeg_of_split (url : Str) :
    ∀ p A ps, splitWeb url = p :: A :: ps → '/' ∈ A → hasWebSeg url = true := by
  induction url using splitWeb.induct with
  | case1 rest ih =>
    intro p A ps h hA
    simp only [splitWeb] at h
    obtain ⟨h1, h2⟩ := List.cons_eq_cons.mp h
    have hmem : '/' ∈ rest := by
      apply splitWeb_head_subset rest
      rw [h2]
      simpa using hA
    simp [hasWebSeg, slashAfterTs_of_mem hmem]
  | case2 c rest hne hnil ih =>
    intro p A ps h hA
    exact absurd hnil (splitWeb_ne_nil rest)
  | case3 c rest hne h0 t hsw ih =>
    intro p A ps h hA
    simp only [splitWeb, hsw] at h
    obtain ⟨h1, h2⟩ := List.cons_eq_cons.mp h
    have hw : hasWebSeg rest = true := ih h0 A ps (by rw [hsw, h2]) hA
    simp_all [hasWebSeg]
  | case4 =>
    intro p A ps h hA
    simp [splitWeb] at h

/-- C2 (amended): _transform_to_raw_url returns None for every input not
containing the archive segment pattern, a defined not-applicable result
rather than an error; whenever it succeeds, the input contained the
pattern, and the result is the archive root, the timestamp segment (the
slash-free text after the first archive marker, bounded by a further
marker if any), the if_ marker, the extension-stripped underlying URL and
the original-resolution query parameters.  The claim as stated is refuted
by the counterexample below: an input containing the pattern can still get
None when a second archive marker cuts the split. -/
theorem c2_transform_shape (url r : Str) (h : transformToRawUrl url = some r) :
    hasWebSeg url = true ∧
    ∃ ts orig, (splitWeb url).get? 1 = some (ts ++ '/' :: orig) ∧ '/' ∉ ts ∧
      r = archiveRoot ++ ts ++ ifMarker ++ rsplitDotHead orig ++ rawQuery := by
  unfold transformToRawUrl at h
  by_cases hw : containsSubstr webTagStr url = true
  · rw [if_pos hw] at h
    cases h1 : (splitWeb url).get? 1 with
    | none => rw [h1] at h; exact absurd h (by simp)
    | some A =>
      rw [h1] at h
      dsimp only at h
      cases h2 : (splitFirstSlash A).get? 1 with
      | none => rw [h2] at h; exact absurd h (by simp)
      | some orig =>
        rw [h2] at h
        dsimp only at h
        rcases splitFirstSlash_shape A with ⟨hs, _⟩ | ⟨ts, rest, hs, hA, hts⟩
        · rw [hs] at h2; simp at h2
        · rw [hs] at h2
          have horig : rest = orig := by simpa using h2
          have hr : r = archiveRoot ++ ts ++ ifMarker ++ rsplitDotHead orig ++ rawQuery := by
            rw [hs] at h
            simpa using h.symm
          obtain ⟨p, ps, hsw⟩ : ∃ p ps, splitWeb url = p :: A :: ps := by
            rcases hsp : splitWeb url with _ | ⟨p, rest2⟩
            · exact absurd hsp (splitWeb_ne_nil url)
            · rcases rest2 with _ | ⟨q, qs⟩
              · rw [hsp] at h1; simp at h1
              · rw [hsp] at h1
                simp only [List.get?] at h1
                exact ⟨p, qs, by rw [Option.some_inj.mp h1]⟩
          refine ⟨hasWebSeg_of_split url p A ps hsw (by rw [hA]; simp), ts, orig,
            ?_, hts, hr⟩
          rw [hA, horig] at h1
          rw [← h1, hsw]
          simp
  · rw [if_neg hw] at h
    exact absurd h (by simp)

/-- Counterexample for C2: this input contains the segment pattern (the
archive marker, the slash-free timestamp abc, a further slash), yet the
function returns None instead of a rewritten URL, because Python split on
the marker also cuts at the second occurrence, leaving no slash in the
piece the timestamp is parsed from. -/
theorem c2_counterexample :
    hasWebSeg c2xUrl = true ∧ transformToRawUrl c2xUrl = none := by decide

/-- Witness for C2: the shape theorem applied to a concrete archive URL. -/
theorem c2_transform_shape_witness :
    hasWebSeg c2wUrl = true ∧
    ∃ ts orig, (splitWeb c2wUrl).get? 1 = some (ts ++ '/' :: orig) ∧ '/' ∉ ts ∧
      c2wRes = archiveRoot ++ ts ++ ifMarker ++ rsplitDotHead orig ++ rawQuery :=
  c2_transform_shape c2wUrl c2wRes (by decide)

theorem orig_boundary (rest q tail : Str)
    (h : rest ++ ':' :: q = 'o' :: 'r' :: 'i' :: 'g' :: tail) :
    ∃ t2, rest = 'o' :: 'r' :: 'i' :: 'g' :: t2 := by
  rcases rest with _ | ⟨a, rest⟩
  · simp at h
  rcases rest with _ | ⟨b, rest⟩
  · simp at h
  rcases rest with _ | ⟨c2, rest⟩
  · simp at h
  rcases rest with _ | ⟨d, rest⟩
  · simp at h
  · simp only [List.cons_append, List.cons_eq_cons] at h
    obtain ⟨rfl, rfl, rfl, rfl, -⟩ := h
    exact ⟨rest, rfl⟩

theorem large_boundary (rest q tail : Str)
    (h : rest ++ ':' :: q = 'l' :: 'a' :: 'r' :: 'g' :: 'e' :: tail) :
    ∃ t2, rest = 'l' :: 'a' :: 'r' :: 'g' :: 'e' :: t2 := by
  rcases rest with _ | ⟨a, rest⟩
  · simp at h
  rcases rest with _ | ⟨b, rest⟩
  · simp at h
  rcases rest with _ | ⟨c2, rest⟩
  · simp at h
  rcases rest with _ | ⟨d, rest⟩
  · simp at h
  rcases rest with _ | ⟨e, rest⟩
  · simp at h
  · simp only [List.cons_append, List.cons_eq_cons] at h
    obtain ⟨rfl, rfl, rfl, rfl, rfl, -⟩ := h
    exact ⟨rest, rfl⟩

theorem stripOrig_cons (c : Char) (s : Str)
    (hno : ∀ t, ¬(c = ':' ∧ s = 'o' :: 'r' :: 'i' :: 'g' :: t)) :
    stripOrig (c :: s) = c :: stripOrig s := by
  rw [stripOrig.eq_def]
  split
  · rename_i rest heq
    obtain ⟨rfl, rfl⟩ := List.cons_eq_cons.mp heq
    exact absurd ⟨rfl, rfl⟩ (hno rest)
  · rename_i x c3 s2 hnm heq
    obtain ⟨rfl, rfl⟩ := List.cons_eq_cons.mp heq
    rfl
  · rename_i heq
    exact absurd heq (by simp)

theorem stripLarge_cons (c : Char) (s : Str)
    (hno : ∀ t, ¬(c = ':' ∧ s = 'l' :: 'a' :: 'r' :: 'g' :: 'e' :: t)) :
    stripLarge (c :: s) = c :: stripLarge s := by
  rw [stripLarge.eq_def]
  split
  · rename_i rest heq
    obtain ⟨rfl, rfl⟩ := List.cons_eq_cons.mp heq
    exact absurd ⟨rfl, rfl⟩ (hno rest)
  · rename_i x c3 s2 hnm heq
    obtain ⟨rfl, rfl⟩ := List.cons_eq_cons.mp heq
    rfl
  · rename_i heq
    exact absurd heq (by simp)

theorem stripOrig_append_orig (x : Str) : stripOrig (x ++ colonOrig) = stripOrig x := by
  induction x using stripOrig.induct <;> simp_all [stripOrig, colonOrig]
  rename_i c rest hne ih
  rw [stripOrig_cons]
  · rw [ih]
  · rintro t ⟨hc, heq⟩
    obtain ⟨t2, ht2⟩ := orig_boundary rest ['o', 'r', 'i', 'g'] t heq
    exact hne t2 hc ht2

theorem stripOrig_append_large (x : Str) :
    stripOrig (x ++ colonLarge) = stripOrig x ++ colonLarge := by
  induction x using stripOrig.induct <;> simp_all [stripOrig, colonLarge]
  rename_i c rest hne ih
  rw [stripOrig_cons]
  · rw [ih]
  · rintro t ⟨hc, heq⟩
    obtain ⟨t2, ht2⟩ := orig_boundary rest ['l', 'a', 'r', 'g', 'e'] t heq
    exact hne t2 hc ht2

theorem stripLarge_append_large (y : Str) : stripLarge (y ++ colonLarge) = stripLarge y := by
  induction y using stripLarge.induct <;> simp_all [stripLarge, colonLarge]
  rename_i c rest hne ih
  rw [stripLarge_cons]
  · rw [ih]
  · rintro t ⟨hc, heq⟩
    obtain ⟨t2, ht2⟩ := large_boundary rest ['l', 'a', 'r', 'g', 'e'] t heq
    exact hne t2 hc ht2

theorem normalizedUrl_eq (url : Str) :
    normalizedUrl url = stripLarge (stripOrig (takeUntilChar '?' url)) := by
  rw [normalizedUrl, pySplitChar_headD]

theorem takeUntilChar_qp (q : Option Str) : takeUntilChar '?' (queryPart q) = [] := by
  cases q <;> simp [queryPart, takeUntilChar]

/-- C1 (amended): two image URLs that differ only by their query string or
by a colonOrig or colonLarge suffix are normalized by download_image to
the same key; the size variants medium, small and thumb are NOT stripped
by this step (the extractors remove them earlier), which refutes the claim
as stated — see the counterexample. -/
theorem c1_normalization_equiv (b : Str) (hq : '?' ∉ b) (s₁ s₂ : Str) (q₁ q₂ : Option Str)
    (h₁ : s₁ = [] ∨ s₁ = colonOrig ∨ s₁ = colonLarge)
    (h₂ : s₂ = [] ∨ s₂ = colonOrig ∨ s₂ = colonLarge) :
    normalizedUrl (b ++ s₁ ++ queryPart q₁) = normalizedUrl (b ++ s₂ ++ queryPart q₂) := by
  have key : ∀ s q, s = [] ∨ s = colonOrig ∨ s = colonLarge →
      normalizedUrl (b ++ s ++ queryPart q) = stripLarge (stripOrig b) := by
    intro s q hs
    have hqs : '?' ∉ s := by rcases hs with rfl | rfl | rfl <;> decide
    rw [normalizedUrl_eq, List.append_assoc, takeUntilChar_append hq,
      takeUntilChar_append hqs, takeUntilChar_qp, List.append_nil]
    rcases hs with rfl | rfl | rfl
    · rw [List.append_nil]
    · rw [stripOrig_append_orig]
    · rw [stripOrig_append_large, stripLarge_append_large]
  rw [key s₁ q₁ h₁, key s₂ q₂ h₂]

/-- Witness for C1: a URL with the colonLarge suffix and a query string
normalizes to the same key as the bare URL. -/
theorem c1_normalization_equiv_witness :
    normalizedUrl (c1wBase ++ colonLarge ++ queryPart (some c1wQuery)) =
      normalizedUrl (c1wBase ++ [] ++ queryPart none) :=
  c1_normalization_equiv c1wBase (by decide) colonLarge [] (some c1wQuery) none
    (Or.inr (Or.inr rfl)) (Or.inl rfl)

/-- Counterexample for C1: two image URLs differing only by the medium
size-variant colon suffix normalize to DIFFERENT keys, because the
normalization step of download_image only deletes the colonOrig and
colonLarge markers, not the other size variants. -/
theorem c1_counterexample : normalizedUrl c1xMedium ≠ normalizedUrl c1xBase := by decide

theorem pySplitChar_append_sep (sep : Char) (x y : Str) :
    pySplitChar sep (x ++ sep :: y) = pySplitChar sep x ++ pySplitChar sep y := by
  induction x with
  | nil =>
    rw [List.nil_append]
    simp only [pySplitChar]
    rcases h : pySplitChar sep y with _ | ⟨h0, t⟩
    · exact absurd h (pySplitChar_ne_nil sep y)
    · simp
  | cons c rest ih =>
    simp only [List.cons_append, pySplitChar, List.append_eq]
    rw [ih]
    rcases h : pySplitChar sep rest with _ | ⟨h0, t⟩
    · exact absurd h (pySplitChar_ne_nil sep rest)
    · by_cases hc : c = sep <;> simp [hc]

theorem pySplitChar_no_sep {sep : Char} {k : Str} (h : sep ∉ k) :
    pySplitChar sep k = [k] := by
  induction k with
  | nil => rfl
  | cons c rest ih =>
    simp only [List.mem_cons, not_or] at h
    have hc : ¬c = sep := fun e => h.1 e.symm
    simp [pySplitChar, ih h.2, hc]

theorem pyFileLines_append (c k : Str) (hc : c = [] ∨ c.getLast? = some '\n')
    (hk : '\n' ∉ k) : pyFileLines (c ++ (k ++ ['\n'])) = pyFileLines c ++ [k] := by
  rcases hc with rfl | hlast
  · have hs : pySplitChar '\n' (k ++ ['\n']) = [k] ++ [[]] := by
      rw [show k ++ ['\n'] = k ++ '\n' :: [] from rfl,
        pySplitChar_append_sep '\n' k [], pySplitChar_no_sep hk]
      rfl
    have L0 : pyFileLines (k ++ ['\n']) = [k] := by
      rw [pyFileLines, if_neg (by simp)]
      dsimp only
      rw [hs, List.getLastD_concat, List.dropLast_concat]
      simp
    rw [List.nil_append, L0]
    simp [pyFileLines]
  · have hcne : c ≠ [] := by rintro rfl; simp at hlast
    obtain ⟨x, rfl⟩ : ∃ x, c = x ++ ['\n'] := by
      have hg : c.getLast hcne = '\n' := by
        rw [List.getLast?_eq_getLast c hcne] at hlast
        exact Option.some_inj.mp hlast
      exact ⟨c.dropLast, by rw [← hg]; exact (List.dropLast_append_getLast hcne).symm⟩
    have hs1 : pySplitChar '\n' (x ++ ['\n'] ++ (k ++ ['\n'])) =
        (pySplitChar '\n' x ++ [k]) ++ [[]] := by
      rw [show x ++ ['\n'] ++ (k ++ ['\n']) = x ++ '\n' :: (k ++ ['\n']) by simp]
      rw [pySplitChar_append_sep '\n' x (k ++ ['\n']),
        show k ++ ['\n'] = k ++ '\n' :: [] from rfl,
        pySplitChar_append_sep '\n' k [], pySplitChar_no_sep hk]
      simp [pySplitChar]
    have hs2 : pySplitChar '\n' (x ++ ['\n']) = pySplitChar '\n' x ++ [[]] := by
      rw [show x ++ ['\n'] = x ++ '\n' :: [] from rfl, pySplitChar_append_sep '\n' x []]
      rfl
    have L1 : pyFileLines (x ++ ['\n'] ++ (k ++ ['\n'])) = pySplitChar '\n' x ++ [k] := by
      rw [pyFileLines, if_neg (by simp)]
      dsimp only
      rw [hs1, List.getLastD_concat, List.dropLast_concat]
      simp
    have L2 : pyFileLines (x ++ ['\n']) = pySplitChar '\n' x := by
      rw [pyFileLines, if_neg (by simp)]
      dsimp only
      rw [hs2, List.getLastD_concat, List.dropLast_concat]
      simp
    rw [L1, L2]

theorem loadDownloadedUrls_some (c : Str) :
    loadDownloadedUrls (some c) = ((pyFileLines c).map pyStrip).toFinset := rfl

theorem toFinset_concat (l : List Str) (k : Str) :
    (l ++ [k]).toFinset = insert k l.toFinset := by
  ext a
  simp [or_comm]

theorem appendKey_load (f : Option Str) (k : Str) (hnl : nlTerminated f)
    (hk : cleanKey k) :
    loadDownloadedUrls (some (f.getD [] ++ (k ++ ['\n'])))
      = insert k (loadDownloadedUrls f) ∧
    (f.getD [] ++ (k ++ ['\n'])).getLast? = some '\n' := by
  have hlines : pyFileLines (f.getD [] ++ (k ++ ['\n'])) = pyFileLines (f.getD []) ++ [k] := by
    apply pyFileLines_append
    · cases f with
      | none => exact Or.inl rfl
      | some c => exact hnl
    · exact hk.2
  constructor
  · rw [loadDownloadedUrls_some, hlines, List.map_append,
      show List.map pyStrip [k] = [k] by simp [hk.1], toFinset_concat]
    congr 1
    cases f with
    | none => simp [pyFileLines, loadDownloadedUrls]
    | some c => rfl
  · rw [show f.getD [] ++ (k ++ ['\n']) = (f.getD [] ++ k) ++ ['\n'] by simp]
    exact List.getLast?_concat _

theorem downloadImage_ledger (tid url : Str) (st : LedgerState) (fetch : Str → Bool)
    (hwf : ledgerWF st) (hk : cleanKey (normalizedUrl url)) :
    ledgerWF (downloadImage tid url st fetch).1 ∧
    st.mem ⊆ (downloadImage tid url st fetch).1.mem ∧
    ((downloadImage tid url st fetch).2.saved = true ∨
        (downloadImage tid url st fetch).2.repaired = true →
      normalizedUrl url ∈ (downloadImage tid url st fetch).1.mem) := by
  obtain ⟨fn, hn, -⟩ := normalizeUrlAndName_total tid url
  obtain ⟨hload, hnl⟩ := hwf
  obtain ⟨hal, han⟩ := appendKey_load st.file (normalizedUrl url) hnl hk
  by_cases hm2 : normalizedUrl url ∈ st.mem
  · have hor : normalizedUrl url ∈ st.mem ∨ fn ∈ st.disk := Or.inl hm2
    simp only [downloadImage, hn]
    rw [if_pos hor, if_pos hm2]
    exact ⟨⟨hload, hnl⟩, Finset.Subset.refl _, fun _ => hm2⟩
  · by_cases hdisk : fn ∈ st.disk
    · have hor : normalizedUrl url ∈ st.mem ∨ fn ∈ st.disk := Or.inr hdisk
      simp only [downloadImage, hn]
      rw [if_pos hor, if_neg hm2]
      refine ⟨⟨?_, Or.inr han⟩, ?_, fun _ => ?_⟩
      · rw [show (appendKey st (normalizedUrl url)).file
            = some (st.file.getD [] ++ (normalizedUrl url ++ ['\n'])) from rfl,
          hal, hload]
        rfl
      · intro a ha
        exact Finset.mem_insert_of_mem ha
      · exact Finset.mem_insert_self _ _
    · have hor : ¬(normalizedUrl url ∈ st.mem ∨ fn ∈ st.disk) := by
        rintro (h | h)
        exacts [hm2 h, hdisk h]
      simp only [downloadImage, hn]
      rw [if_neg hor]
      by_cases hok : (fetchPlan url fetch).2 = true
      · rw [if_pos hok]
        refine ⟨⟨?_, Or.inr han⟩, ?_, fun _ => ?_⟩
        · rw [show (appendKey { st with disk := insert fn st.disk } (normalizedUrl url)).file
              = some (st.file.getD [] ++ (normalizedUrl url ++ ['\n'])) from rfl,
            hal, hload]
          rfl
        · intro a ha
          exact Finset.mem_insert_of_mem ha
        · exact Finset.mem_insert_self _ _
      · rw [if_neg hok]
        refine ⟨⟨hload, hnl⟩, Finset.Subset.refl _, ?_⟩
        rintro (h | h) <;> simp at h

theorem downloadImage_flags (tid url : Str) (st : LedgerState) (fetch : Str → Bool) :
    ¬((downloadImage tid url st fetch).2.saved = true ∧
      (downloadImage tid url st fetch).2.repaired = true) := by
  obtain ⟨fn, hn, -⟩ := normalizeUrlAndName_total tid url
  by_cases hm2 : normalizedUrl url ∈ st.mem
  · have hor : normalizedUrl url ∈ st.mem ∨ fn ∈ st.disk := Or.inl hm2
    simp [downloadImage, hn, hor, hm2]
  · by_cases hdisk : fn ∈ st.disk
    · have hor : normalizedUrl url ∈ st.mem ∨ fn ∈ st.disk := Or.inr hdisk
      simp [downloadImage, hn, hor, hm2, hdisk]
    · have hor : ¬(normalizedUrl url ∈ st.mem ∨ fn ∈ st.disk) := by
        rintro (h | h)
        exacts [hm2 h, hdisk h]
      by_cases hok : (fetchPlan url fetch).2 = true
      · simp [downloadImage, hn, hor, hok]
      · simp [downloadImage, hn, hor, hok]

theorem downloadImage_card (tid url : Str) (st : LedgerState) (fetch : Str → Bool) :
    (downloadImage tid url st fetch).1.mem.card
      = st.mem.card +
        (if ((downloadImage tid url st fetch).2.saved ||
              (downloadImage tid url st fetch).2.repaired) = true then 1 else 0) := by
  obtain ⟨fn, hn, -⟩ := normalizeUrlAndName_total tid url
  by_cases hm2 : normalizedUrl url ∈ st.mem
  · have hor : normalizedUrl url ∈ st.mem ∨ fn ∈ st.disk := Or.inl hm2
    simp [downloadImage, hn, hor, hm2]
  · by_cases hdisk : fn ∈ st.disk
    · have hor : normalizedUrl url ∈ st.mem ∨ fn ∈ st.disk := Or.inr hdisk
      simp [downloadImage, hn, hor, hm2, hdisk, appendKey,
        Finset.card_insert_of_not_mem hm2]
    · have hor : ¬(normalizedUrl url ∈ st.mem ∨ fn ∈ st.disk) := by
        rintro (h | h)
        exacts [hm2 h, hdisk h]
      by_cases hok : (fetchPlan url fetch).2 = true
      · simp [downloadImage, hn, hor, hok, appendKey, Finset.card_insert_of_not_mem hm2]
      · simp [downloadImage, hn, hor, hok]

/-- C6 (amended): a nonexistent durable log reloads as the empty set; a
download_image call whose URL normalizes to a key already in the in-memory
set skips without any fetch attempt and changes nothing; and every call
preserves the invariant that reloading the durable log reconstructs
exactly the in-memory set, PROVIDED the normalized key is strip-invariant
and newline-free — the proviso is forced by the counterexample.  The set
only grows, and a call that saved or backfilled leaves its key recorded. -/
theorem c6_ledger_idempotent :
    loadDownloadedUrls none = (∅ : Finset Str) ∧
    (∀ tid url st fetch nu fn, normalizeUrlAndName tid url = some (nu, fn) →
      nu ∈ st.mem →
      downloadImage tid url st fetch = (st, ⟨[], false, false, []⟩)) ∧
    (∀ tid url st fetch, ledgerWF st → cleanKey (normalizedUrl url) →
      ledgerWF (downloadImage tid url st fetch).1 ∧
      st.mem ⊆ (downloadImage tid url st fetch).1.mem ∧
      ((downloadImage tid url st fetch).2.saved = true ∨
          (downloadImage tid url st fetch).2.repaired = true →
        normalizedUrl url ∈ (downloadImage tid url st fetch).1.mem)) := by
  refine ⟨rfl, ?_, ?_⟩
  · intro tid url st fetch nu fn hn hm
    simp only [downloadImage, hn]
    rw [if_pos (Or.inl hm), if_pos hm]
  · intro tid url st fetch hwf hk
    exact downloadImage_ledger tid url st fetch hwf hk

/-- Witness for C6: with the key already recorded in the in-memory set, a
later call skips with no fetch attempt and no state change. -/
theorem c6_ledger_idempotent_witness :
    downloadImage c6wTid c6wKey c6wSt (fun _ => false) = (c6wSt, ⟨[], false, false, []⟩) :=
  c6_ledger_idempotent.2.1 c6wTid c6wKey c6wSt (fun _ => false) c6wKey c6wFn
    (by decide) (by decide)

/-- Counterexample for C6: after downloading a URL whose normalized key
carries a leading space, reloading the durable log yields a set DIFFERENT
from the recorded one, because load_downloaded_urls strips each line while
download_image records the unstripped key. -/
theorem c6_counterexample :
    loadDownloadedUrls ((downloadImage c6xTid c6xUrl c6xSt (fun _ => true)).1.file)
      ≠ (downloadImage c6xTid c6xUrl c6xSt (fun _ => true)).1.mem := by decide

/-- C7 (amended): over any run, the session counter printed at completion
equals the number of images actually downloaded and saved PLUS the number
of ledger backfills of files already on disk; the claim that it equals the
saves alone is refuted by the counterexample below. -/
theorem c7_counter_accounting (tid : Str) (fetch : Str → Bool) (urls : List Str) :
    ∀ st c s r,
      (processUrls tid fetch urls st c s r).2.1 + s + r
        = c + (processUrls tid fetch urls st c s r).2.2.1
            + (processUrls tid fetch urls st c s r).2.2.2 := by
  induction urls with
  | nil =>
    intro st c s r
    simp only [processUrls]
  | cons u rest ih =>
    intro st c s r
    have hcard := downloadImage_card tid u st fetch
    have hflag := downloadImage_flags tid u st fetch
    simp only [processUrls]
    cases hsv : (downloadImage tid u st fetch).2.saved <;>
      cases hrp : (downloadImage tid u st fetch).2.repaired
    · rw [hsv, hrp] at hcard
      simp at hcard
      have hnc : ¬(st.mem.card < (downloadImage tid u st fetch).1.mem.card) := by omega
      have key := ih (downloadImage tid u st fetch).1 c (s + 0) (r + 0)
      rw [if_neg hnc]
      simpa using key
    · rw [hsv, hrp] at hcard
      simp at hcard
      have hc : st.mem.card < (downloadImage tid u st fetch).1.mem.card := by omega
      have key := ih (downloadImage tid u st fetch).1 (c + 1) (s + 0) (r + 1)
      rw [if_pos hc]
      simp at key ⊢
      omega
    · rw [hsv, hrp] at hcard
      simp at hcard
      have hc : st.mem.card < (downloadImage tid u st fetch).1.mem.card := by omega
      have key := ih (downloadImage tid u st fetch).1 (c + 1) (s + 1) (r + 0)
      rw [if_pos hc]
      simp at key ⊢
      omega
    · exact absurd ⟨hsv, hrp⟩ hflag

/-- Counterexample for C7: a run over one URL whose file is already on
disk but absent from the ledger saves nothing, yet the session counter is
1, because the skip branch backfills the ledger and main counts any growth
of the in-memory set as a new download. -/
theorem c7_counterexample :
    (processUrls c7xTid (fun _ => false) [c7xUrl] c7xSt 0 0 0).2.1 = 1 ∧
    (processUrls c7xTid (fun _ => false) [c7xUrl] c7xSt 0 0 0).2.2.1 = 0 := by decide

/-- C8: when the primary fetch of a new image fails and the URL matches
the raw-content rewrite pattern, download_image performs exactly one
further fetch attempt, at the transformed URL, and appends the
final-failure line to the image failure log exactly when that retry also
fails; when the URL does not match, no second fetch occurs and the failure
is logged immediately. -/
theorem c8_retry_once (tid url : Str) (st : LedgerState) (fetch : Str → Bool)
    (nu fn : Str) (hn : normalizeUrlAndName tid url = some (nu, fn))
    (h1 : nu ∉ st.mem) (h2 : fn ∉ st.disk) (hp : fetch url = false) :
    (∀ raw, transformToRawUrl url = some raw →
      (downloadImage tid url st fetch).2.attempts = [url, raw] ∧
      (ImgLog.allFailed ∈ (downloadImage tid url st fetch).2.logs ↔ fetch raw = false)) ∧
    (transformToRawUrl url = none →
      (downloadImage tid url st fetch).2.attempts = [url] ∧
      (downloadImage tid url st fetch).2.logs = [ImgLog.allFailed]) := by
  have hor : ¬(nu ∈ st.mem ∨ fn ∈ st.disk) := by
    rintro (h | h)
    exacts [h1 h, h2 h]
  constructor
  · intro raw hraw
    have hfp : fetchPlan url fetch = ([url, raw], fetch raw) := by
      rw [fetchPlan, if_neg (by rw [hp]; simp), hraw]
    cases hres : fetch raw with
    | false => simp [downloadImage, hn, hor, hfp, hres]
    | true => simp [downloadImage, hn, hor, hfp, hres]
  · intro hraw
    have hfp : fetchPlan url fetch = ([url], false) := by
      rw [fetchPlan, if_neg (by rw [hp]; simp), hraw]
    simp [downloadImage, hn, hor, hfp]

/-- Witness for C8: a concrete failed primary fetch whose URL matches the
rewrite pattern performs exactly one retry at the transformed URL and,
with the retry also failing, logs the final failure. -/
theorem c8_retry_once_witness :
    (downloadImage c8wTid c8wUrl c8wSt (fun _ => false)).2.attempts = [c8wUrl, c8wRaw] ∧
    (ImgLog.allFailed ∈ (downloadImage c8wTid c8wUrl c8wSt (fun _ => false)).2.logs ↔
      (fun _ : Str => false) c8wRaw = false) :=
  (c8_retry_once c8wTid c8wUrl c8wSt (fun _ => false) c8wNu c8wFn (by decide)
    (by decide) (by decide) rfl).1 c8wRaw (by decide)